import Mathlib

set_option maxRecDepth 20000

namespace JotDown

/-!
Shallow embedding of `src/formatter.rs` (JotDown).

Strings are modelled as lists of characters (`Str`); Rust's byte-based
`len()` and byte slicing coincide with character counts on the ASCII text
that all concrete inputs here use, and the algorithms themselves never cut
a UTF-8 code point.  Unicode-aware character classes (`char::is_whitespace`,
regex `\s`, `\d`, `str::to_lowercase`) are modelled by their ASCII
fragments, which is what every language tag, fence marker and heading
marker involved consists of.  Fallible operations (`unwrap` on the
`serde_json` accessors in `format_for_notion`) are modelled in `Option`.
-/

abbrev Str := List Char

def str (s : String) : Str := s.data

/-- ASCII fragment of Rust `char::is_whitespace` / regex `\s`
(space, tab, newline, carriage return, vertical tab, form feed). -/
def wsChar (c : Char) : Bool :=
  c == ' ' || c == '\t' || c == '\n' || c == '\r' || c == '\x0b' || c == '\x0c'

/-- Rust `str::trim_start`. -/
def trimStart (l : Str) : Str := l.dropWhile wsChar

/-- Rust `str::trim_end`. -/
def trimEnd (l : Str) : Str := (l.reverse.dropWhile wsChar).reverse

/-- Rust `str::trim`. -/
def trim (l : Str) : Str := trimStart (trimEnd l)

/-- Rust `str::starts_with`. -/
def startsWith (l p : Str) : Bool := p.isPrefixOf l

/-- Rust `text.split('\n')`: the list of newline-free segments, with empty
segments kept (`""` splits to `[""]`, `"a\n"` to `["a", ""]`). -/
def splitNl : Str → List Str
  | [] => [[]]
  | c :: rest =>
    if c = '\n' then [] :: splitNl rest
    else
      match splitNl rest with
      | [] => [[c]]
      | l :: ls => (c :: l) :: ls

/-- Inverse of `splitNl`: join lines with a single newline between them. -/
def joinNl : List Str → Str
  | [] => []
  | [l] => l
  | l :: l2 :: ls => l ++ '\n' :: joinNl (l2 :: ls)

/-- Rust byte slice `&text[a..b]`. -/
def slice (t : Str) (a b : Nat) : Str := (t.drop a).take (b - a)

/-! ## `simple_split` (formatter.rs lines 97-167) -/

/-- Mutable state of `simple_split`'s loop: the finished `chunks`, the
`current_chunk` buffer, the `in_code_block` flag and the
`code_block_content` buffer. -/
structure SState where
  chunks : List Str
  current : Str
  inCode : Bool
  codeCont : Str

/-- Rust's `if !current_chunk.is_empty() { chunks.push(current_chunk) }`. -/
def pushCur (cs : List Str) (cur : Str) : List Str :=
  if cur = [] then cs else cs ++ [cur]

/-- One iteration of the `for line in text.split('\n')` loop of
`simple_split`.  A line whose trimmed content starts with a triple
backtick toggles the code-block state; inside a code block lines are
buffered; outside, lines are appended to the current chunk with an
overflow check. -/
def simpleStep (maxLen : Nat) (st : SState) (line : Str) : SState :=
  if startsWith (trim line) (str "```") then
    if st.inCode = false then
      { st with inCode := true, codeCont := line ++ ['\n'] }
    else
      let code := st.codeCont ++ line
      if maxLen < st.current.length + code.length then
        { chunks := pushCur st.chunks st.current ++ [code],
          current := [], inCode := false, codeCont := [] }
      else
        { chunks := st.chunks, current := st.current ++ code,
          inCode := false, codeCont := [] }
  else if st.inCode then
    { st with codeCont := st.codeCont ++ line ++ ['\n'] }
  else
    let lw := line ++ ['\n']
    if maxLen < st.current.length + lw.length then
      { st with chunks := pushCur st.chunks st.current, current := lw }
    else
      { st with current := st.current ++ lw }

/-- Trailing flush of `simple_split` (formatter.rs lines 150-164): flush a
pending code unit with the overflow check, then push the final
`current_chunk`.  Note that in the overflow branch the Rust code pushes
`current_chunk` (line 154) without clearing it, so the final push at lines
162-164 emits it a second time; the embedding reproduces this
faithfully. -/
def finishSplit (maxLen : Nat) (st : SState) : List Str :=
  if st.codeCont = [] then pushCur st.chunks st.current
  else if maxLen < st.current.length + st.codeCont.length then
    pushCur (pushCur st.chunks st.current ++ [st.codeCont]) st.current
  else pushCur st.chunks (st.current ++ st.codeCont)

/-- `simple_split` (formatter.rs lines 97-167). -/
def simple_split (text : Str) (maxLen : Nat) : List Str :=
  finishSplit maxLen ((splitNl text).foldl (simpleStep maxLen) ⟨[], [], false, []⟩)

/-! ## The header regex `(?m)^(#{1,3}\s.+)$` and `split_content`
(formatter.rs lines 17-85) -/

/-- Match attempt of `#{1,3}\s.+$` at a line start, given the suffix of the
text from that position.  Greedy matching is deterministic here: the run
of leading `#` must have length 1-3 exactly (a longer run leaves a `#`
where `\s` is required, and backtracking onto fewer `#` likewise), then
one whitespace character (which may be the newline itself, in which case
`.+` matches on the following line), then one or more non-newline
characters up to the (?m) line end.  Returns the match length. -/
def headerMatchLen (s : Str) : Option Nat :=
  let k := (s.takeWhile (fun c => c = '#')).length
  let body := ((s.drop (k + 1)).takeWhile (fun x => x ≠ '\n')).length
  if 1 ≤ k ∧ k ≤ 3 ∧ (s.drop k).head?.map wsChar = some true ∧ 1 ≤ body then
    some (k + 1 + body)
  else none

/-- `Regex::find_iter` for the header regex: scan line starts left to
right; after a match, resume searching at the match end, i.e. at the next
line start (the match always ends at a line end).  `fuel` makes the
recursion structural; `findHeaders` supplies enough fuel for the whole
text.  Returns the (start, end) spans of the matches. -/
def findHeadersAux : Nat → Str → Nat → List (Nat × Nat)
  | 0, _, _ => []
  | _ + 1, [], _ => []
  | fuel + 1, s@(_ :: _), p =>
    match headerMatchLen s with
    | some len => (p, p + len) :: findHeadersAux fuel (s.drop (len + 1)) (p + len + 1)
    | none =>
      let skip := (s.takeWhile (fun x => x ≠ '\n')).length + 1
      findHeadersAux fuel (s.drop skip) (p + skip)

def findHeaders (text : Str) : List (Nat × Nat) :=
  findHeadersAux (text.length + 1) text 0

/-- State of the header-walking loop of `split_content`: the output
`parts`, the `last_pos` marker and the `current_chunk` buffer. -/
structure HState where
  parts : List Str
  lastPos : Nat
  current : Str

/-- Body of `if i > 0 { ... }` (formatter.rs lines 38-49): append the text
between the previous boundary and the current header, flushing first on
overflow. -/
def headerAppend (text : Str) (maxLen : Nat) (st : HState) (hstart : Nat) : HState :=
  if maxLen < st.current.length + (slice text st.lastPos hstart).length then
    { st with parts := st.parts ++ [st.current], current := slice text st.lastPos hstart }
  else
    { st with current := st.current ++ slice text st.lastPos hstart }

/-- Body of `if current_chunk.is_empty() { ... }` (formatter.rs lines
51-55): an empty buffer is seeded with the whole remaining text from the
current header position. -/
def headerSeed (text : Str) (st : HState) (hstart : Nat) : HState :=
  if st.current = [] then { st with current := text.drop hstart } else st

/-- One iteration of `for (i, header_match) in headers.iter().enumerate()`
(formatter.rs lines 36-58).  `ih` is the pair (index, header span). -/
def headerStep (text : Str) (maxLen : Nat) (st : HState) (ih : Nat × Nat × Nat) : HState :=
  { headerSeed text (if 0 < ih.1 then headerAppend text maxLen st ih.2.1 else st) ih.2.1
      with lastPos := ih.2.1 }

/-- Tail handling of `split_content` (formatter.rs lines 60-72): after the
header walk, append or push the remaining text from the last header
position, or flush a leftover buffer. -/
def headerParts (text : Str) (maxLen : Nat) (stF : HState) : List Str :=
  if stF.lastPos < text.length then
    if maxLen < stF.current.length + (text.drop stF.lastPos).length then
      stF.parts ++ [stF.current, text.drop stF.lastPos]
    else
      stF.parts ++ [stF.current ++ text.drop stF.lastPos]
  else if stF.current = [] then stF.parts
  else stF.parts ++ [stF.current]

/-- Post-pass of `split_content` (formatter.rs lines 74-84): re-split
every part still over the limit with `simple_split`. -/
def postPass (maxLen : Nat) (parts : List Str) : List Str :=
  (parts.map (fun c => if maxLen < c.length then simple_split c maxLen else [c])).flatten

/-- `split_content` (formatter.rs lines 17-85): identity below the limit,
otherwise split at heading matches and re-split oversized parts with
`simple_split`; with no heading matches, delegate to `simple_split`. -/
def split_content (text : Str) (maxLen : Nat) : List Str :=
  if text.length ≤ maxLen then [text]
  else if findHeaders text = [] then simple_split text maxLen
  else
    postPass maxLen (headerParts text maxLen
      ((findHeaders text).enum.foldl (headerStep text maxLen) ⟨[], 0, []⟩))

/-! ## `get_valid_notion_language` (formatter.rs lines 280-317) -/

/-- The Notion language allow-list (formatter.rs lines 282-291). -/
def validLanguages : List Str :=
  [str "abap", str "agda", str "arduino", str "assembly", str "bash", str "basic",
   str "c", str "c#", str "c++", str "clojure", str "coffeescript", str "css",
   str "dart", str "diff", str "docker", str "elixir", str "elm", str "erlang",
   str "f#", str "flow", str "fortran", str "go", str "graphql", str "groovy",
   str "haskell", str "html", str "java", str "javascript", str "json",
   str "julia", str "kotlin", str "latex", str "less", str "lisp", str "lua",
   str "makefile", str "markdown", str "matlab", str "mermaid", str "nix",
   str "objective-c", str "ocaml", str "pascal", str "perl", str "php",
   str "python", str "r", str "ruby", str "rust", str "scala", str "scheme",
   str "scss", str "shell", str "sql", str "swift", str "typescript",
   str "vb.net", str "verilog", str "vhdl", str "xml", str "yaml"]

/-- ASCII fragment of Rust `str::to_lowercase`. -/
def toLowerStr (l : Str) : Str := l.map Char.toLower

/-- `get_valid_notion_language`: trim and lower-case, return allow-list
members unchanged (the Rust inner loop returns the list entry equal to the
normalized input, hence the normalized input itself), map the empty tag to
"plain text", resolve the fixed aliases, and fall back to "plain text". -/
def get_valid_notion_language (language : Str) : Str :=
  let normalized := toLowerStr (trim language)
  if normalized ∈ validLanguages then normalized
  else if normalized = [] then str "plain text"
  else if normalized = str "js" ∨ normalized = str "jsx" then str "javascript"
  else if normalized = str "py" then str "python"
  else if normalized = str "ts" ∨ normalized = str "tsx" then str "typescript"
  else if normalized = str "sh" ∨ normalized = str "zsh" then str "shell"
  else if normalized = str "md" then str "markdown"
  else str "plain text"

/-! ## `format_for_notion` (formatter.rs lines 178-278) -/

/-- Fragment of `serde_json::Value` used by `format_for_notion`: strings,
arrays and objects (with insertion-ordered string keys). -/
inductive Value where
  | vStr : Str → Value
  | vArr : List Value → Value
  | vObj : List (String × Value) → Value

/-- Update the value stored at an existing key of an object field list. -/
def setKey (fs : List (String × Value)) (k : String) (v : Value) :
    List (String × Value) :=
  fs.map (fun p => if p.1 = k then (k, v) else p)

/-- The `json!({"type": "text", "text": {"content": line}})` run pushed
for each line inside a code block (formatter.rs lines 213-216). -/
def richTextRun (content : Str) : Value :=
  .vObj [("type", .vStr (str "text")), ("text", .vObj [("content", .vStr content)])]

/-- The code-block accumulator value with language `lang` (already
normalized) and collected runs.  With `runs = []` this is the
`json!` literal of formatter.rs lines 192-198. -/
def codeBlockV (lang : Str) (runs : List Value) : Value :=
  .vObj [("type", .vStr (str "code")),
         ("code", .vObj [("rich_text", .vArr runs), ("language", .vStr lang)])]

/-- The `{"text": {"content": c}}` run used by heading, list and
paragraph blocks. -/
def simpleRun (content : Str) : Value :=
  .vObj [("text", .vObj [("content", .vStr content)])]

def paragraphV (runs : List Value) : Value :=
  .vObj [("type", .vStr (str "paragraph")), ("paragraph", .vObj [("rich_text", .vArr runs)])]

def heading1V (content : Str) : Value :=
  .vObj [("type", .vStr (str "heading_1")),
         ("heading_1", .vObj [("rich_text", .vArr [simpleRun content])])]

def heading2V (content : Str) : Value :=
  .vObj [("type", .vStr (str "heading_2")),
         ("heading_2", .vObj [("rich_text", .vArr [simpleRun content])])]

def heading3V (content : Str) : Value :=
  .vObj [("type", .vStr (str "heading_3")),
         ("heading_3", .vObj [("rich_text", .vArr [simpleRun content])])]

def bulletV (content : Str) : Value :=
  .vObj [("type", .vStr (str "bulleted_list_item")),
         ("bulleted_list_item", .vObj [("rich_text", .vArr [simpleRun content])])]

def numberedV (content : Str) : Value :=
  .vObj [("type", .vStr (str "numbered_list_item")),
         ("numbered_list_item", .vObj [("rich_text", .vArr [simpleRun content])])]

/-- `code_block["code"]["rich_text"].as_array_mut().unwrap().push(run)`
(formatter.rs lines 213-216): `none` models the panics (indexing a
non-object, or `unwrap` on a non-array `rich_text`). -/
def pushRun (cb run : Value) : Option Value :=
  match cb with
  | .vObj fs =>
    match fs.lookup "code" with
    | some (.vObj cfs) =>
      match cfs.lookup "rich_text" with
      | some (.vArr runs) =>
        some (.vObj (setKey fs "code"
          (.vObj (setKey cfs "rich_text" (.vArr (runs ++ [run]))))))
      | _ => none
    | _ => none
  | _ => none

/-- Match length of the numbered-list regex `^\d+\.\s` (one or more ASCII
digits, a period, one whitespace character, anchored at the start);
`Regex::replace` with the empty string drops exactly this prefix. -/
def numMarkLen (l : Str) : Option Nat :=
  let ds := l.takeWhile (fun c => c.isDigit)
  if ds.length = 0 then none
  else
    match l.drop ds.length with
    | '.' :: c :: _ => if wsChar c then some (ds.length + 2) else none
    | _ => none

/-- State of `format_for_notion`'s loop: emitted `blocks` and the optional
open code-block accumulator `current_code_block`. -/
structure FState where
  blocks : List Value
  cur : Option Value

/-- One iteration of the `while i < lines.len()` loop of
`format_for_notion` (formatter.rs lines 184-270): right-trim the line,
then dispatch on fence open (strip_prefix succeeds and no block open),
fence close (trims to exactly the marker while a block is open), capture
into an open block, blank line, headings, bullets, numbered items, and
plain paragraphs, in that order. -/
def formatStep (st : FState) (raw : Str) : Option FState :=
  let line := trimEnd raw
  if startsWith line (str "```") = true ∧ st.cur.isNone = true then
    some { st with
      cur := some (codeBlockV (get_valid_notion_language (trim (line.drop 3))) []) }
  else if trim line = str "```" ∧ st.cur.isSome = true then
    match st.cur with
    | some cb => some { blocks := st.blocks ++ [cb], cur := none }
    | none => none
  else
    match st.cur with
    | some cb =>
      match pushRun cb (richTextRun (line ++ ['\n'])) with
      | some cb2 => some { st with cur := some cb2 }
      | none => none
    | none =>
      if trim line = [] then some { st with blocks := st.blocks ++ [paragraphV []] }
      else if startsWith line (str "# ") then
        some { st with blocks := st.blocks ++ [heading1V (line.drop 2)] }
      else if startsWith line (str "## ") then
        some { st with blocks := st.blocks ++ [heading2V (line.drop 3)] }
      else if startsWith line (str "### ") then
        some { st with blocks := st.blocks ++ [heading3V (line.drop 4)] }
      else if startsWith line (str "- ") ∨ startsWith line (str "* ") then
        some { st with blocks := st.blocks ++ [bulletV (line.drop 2)] }
      else
        match numMarkLen line with
        | some n => some { st with blocks := st.blocks ++ [numberedV (line.drop n)] }
        | none => some { st with blocks := st.blocks ++ [paragraphV [simpleRun line]] }

/-- `format_for_notion` (formatter.rs lines 178-278): process the lines in
order, then flush a still-open code block.  The result is `none` exactly
when one of the modelled `unwrap`s would panic. -/
def format_for_notion (text : Str) : Option (List Value) :=
  match (splitNl text).foldlM formatStep ⟨[], none⟩ with
  | some st =>
    some (match st.cur with
          | some cb => st.blocks ++ [cb]
          | none => st.blocks)
  | none => none

/-! ## Lemmas: trimming -/

theorem trimStart_cons (c : Char) (l : Str) :
    trimStart (c :: l) = if wsChar c then trimStart l else c :: l := by
  simp [trimStart, List.dropWhile_cons]

theorem trimEnd_eq_nil_iff (l : Str) :
    trimEnd l = [] ↔ List.dropWhile wsChar l.reverse = [] := by
  unfold trimEnd
  exact List.reverse_eq_nil_iff

theorem trimEnd_cons (c : Char) (l : Str) :
    trimEnd (c :: l) =
      if trimEnd l = [] then (if wsChar c then [] else [c]) else c :: trimEnd l := by
  show ((c :: l).reverse.dropWhile wsChar).reverse = _
  rw [List.reverse_cons, List.dropWhile_append]
  by_cases h : List.dropWhile wsChar l.reverse = []
  · rw [if_pos (by simp [h]), if_pos ((trimEnd_eq_nil_iff l).mpr h)]
    by_cases hc : wsChar c
    · simp [List.dropWhile_cons, hc]
    · simp [List.dropWhile_cons, hc]
  · rw [if_neg (by simp [h]), if_neg (fun hh => h ((trimEnd_eq_nil_iff l).mp hh)),
      List.reverse_append]
    unfold trimEnd
    rfl

theorem trimStart_idem (l : Str) : trimStart (trimStart l) = trimStart l :=
  List.dropWhile_idempotent wsChar l

theorem trimEnd_idem (l : Str) : trimEnd (trimEnd l) = trimEnd l := by
  show (((l.reverse.dropWhile wsChar).reverse).reverse.dropWhile wsChar).reverse = _
  rw [List.reverse_reverse, List.dropWhile_idempotent]
  unfold trimEnd
  rfl

theorem trimEnd_trimStart (l : Str) : trimEnd (trimStart l) = trimStart (trimEnd l) := by
  induction l with
  | nil => rfl
  | cons c cs ih =>
    by_cases hc : wsChar c
    · rw [trimStart_cons, if_pos hc, ih, trimEnd_cons]
      by_cases h0 : trimEnd cs = []
      · rw [if_pos h0, if_pos hc, h0]
      · rw [if_neg h0, trimStart_cons, if_pos hc]
    · rw [trimStart_cons, if_neg hc, trimEnd_cons]
      by_cases h0 : trimEnd cs = []
      · rw [if_pos h0, if_neg hc, trimStart_cons, if_neg hc]
      · rw [if_neg h0, trimStart_cons, if_neg hc]

theorem trim_trim (l : Str) : trim (trim l) = trim l := by
  show trimStart (trimEnd (trimStart (trimEnd l))) = trimStart (trimEnd l)
  rw [trimEnd_trimStart, trimEnd_idem, trimStart_idem]

theorem trim_trimEnd (l : Str) : trim (trimEnd l) = trim l := by
  show trimStart (trimEnd (trimEnd l)) = trimStart (trimEnd l)
  rw [trimEnd_idem]

theorem trimEnd_nil : trimEnd [] = [] := rfl

theorem trimEnd_append (xs ys : Str) :
    trimEnd (xs ++ ys) = if trimEnd ys = [] then trimEnd xs else xs ++ trimEnd ys := by
  induction xs with
  | nil =>
    by_cases h : trimEnd ys = [] <;> simp [h, trimEnd_nil]
  | cons c cs ih =>
    rw [List.cons_append, trimEnd_cons, ih]
    by_cases h : trimEnd ys = []
    · rw [if_pos h, if_pos h, trimEnd_cons]
    · rw [if_neg h, if_neg h, if_neg (by simp [h]), List.cons_append]

theorem trimEnd_tick_append (L : Str) :
    trimEnd (str "```" ++ L) = str "```" ++ trimEnd L := by
  rw [trimEnd_append]
  by_cases h : trimEnd L = []
  · rw [if_pos h, h, List.append_nil]
    rfl
  · rw [if_neg h]

theorem isPrefixOf_append_right (p x : Str) : p.isPrefixOf (p ++ x) = true :=
  List.isPrefixOf_iff_prefix.mpr (List.prefix_append p x)

theorem startsWith_tick_append (x : Str) :
    startsWith (str "```" ++ x) (str "```") = true :=
  isPrefixOf_append_right (str "```") x

/-! ## Lemmas: splitting on newlines -/

theorem joinNl_cons (l : Str) (ls : List Str) :
    joinNl (l :: ls) = if ls = [] then l else l ++ '\n' :: joinNl ls := by
  cases ls <;> simp [joinNl]

theorem splitNl_ne_nil (t : Str) : splitNl t ≠ [] := by
  cases t with
  | nil => simp [splitNl]
  | cons c cs =>
    simp only [splitNl]
    split
    · simp
    · split <;> simp

theorem splitNl_no_nl (t : Str) : ∀ l ∈ splitNl t, '\n' ∉ l := by
  induction t with
  | nil =>
    intro l hl
    simp only [splitNl, List.mem_singleton] at hl
    simp [hl]
  | cons c cs ih =>
    intro l hl
    simp only [splitNl] at hl
    by_cases h : c = '\n'
    · rw [if_pos h] at hl
      rcases List.mem_cons.mp hl with rfl | hl
      · simp
      · exact ih l hl
    · rw [if_neg h] at hl
      rcases hs : splitNl cs with _ | ⟨x, xs⟩
      · exact absurd hs (splitNl_ne_nil cs)
      · rw [hs] at hl
        rcases List.mem_cons.mp hl with rfl | hl
        · intro hmem
          rcases List.mem_cons.mp hmem with h1 | hmem
          · exact h h1.symm
          · exact ih x (by rw [hs]; exact List.mem_cons_self x xs) hmem
        · exact ih l (by rw [hs]; exact List.mem_cons_of_mem x hl)

theorem joinNl_splitNl (t : Str) : joinNl (splitNl t) = t := by
  induction t with
  | nil => rfl
  | cons c cs ih =>
    simp only [splitNl]
    by_cases h : c = '\n'
    · rw [if_pos h, joinNl_cons, if_neg (splitNl_ne_nil cs), ih, h]
      rfl
    · rw [if_neg h]
      rcases hs : splitNl cs with _ | ⟨x, xs⟩
      · exact absurd hs (splitNl_ne_nil cs)
      · rw [hs] at ih
        cases xs with
        | nil =>
          rw [joinNl_cons, if_pos rfl]
          rw [joinNl_cons, if_pos rfl] at ih
          rw [ih]
        | cons y ys =>
          rw [joinNl_cons, if_neg (by simp)]
          rw [joinNl_cons, if_neg (by simp)] at ih
          rw [List.cons_append, ih]

theorem splitNl_single (l : Str) (h : '\n' ∉ l) : splitNl l = [l] := by
  induction l with
  | nil => rfl
  | cons c cs ih =>
    have hc : c ≠ '\n' := fun hh => h (hh ▸ List.mem_cons_self c cs)
    simp only [splitNl, if_neg hc, ih (fun hm => h (List.mem_cons_of_mem c hm))]

theorem splitNl_append_cons (l : Str) (h : '\n' ∉ l) (rest : Str) :
    splitNl (l ++ '\n' :: rest) = l :: splitNl rest := by
  induction l with
  | nil =>
    simp [splitNl]
  | cons c cs ih =>
    have hc : c ≠ '\n' := fun hh => h (hh ▸ List.mem_cons_self c cs)
    rw [List.cons_append]
    simp only [splitNl, if_neg hc, ih (fun hm => h (List.mem_cons_of_mem c hm))]

theorem splitNl_joinNl (ls : List Str) (h : ∀ l ∈ ls, '\n' ∉ l) (hne : ls ≠ []) :
    splitNl (joinNl ls) = ls := by
  induction ls with
  | nil => exact absurd rfl hne
  | cons l rest ih =>
    cases rest with
    | nil =>
      rw [joinNl_cons, if_pos rfl, splitNl_single l (h l (List.mem_cons_self _ _))]
    | cons l2 rest2 =>
      rw [joinNl_cons, if_neg (by simp),
        splitNl_append_cons l (h l (List.mem_cons_self _ _)),
        ih (fun x hx => h x (List.mem_cons_of_mem l hx)) (by simp)]

/-! ## Lemmas: the language normalizer -/

theorem get_valid_mem_or_plain (x : Str) :
    get_valid_notion_language x ∈ validLanguages ∨
      get_valid_notion_language x = str "plain text" := by
  simp only [get_valid_notion_language]
  split_ifs with h1 h2 h3 h4 h5 h6 h7
  · exact Or.inl h1
  · exact Or.inr rfl
  · exact Or.inl (by decide)
  · exact Or.inl (by decide)
  · exact Or.inl (by decide)
  · exact Or.inl (by decide)
  · exact Or.inl (by decide)
  · exact Or.inr rfl

theorem validLanguages_fixed :
    ∀ y ∈ validLanguages, get_valid_notion_language y = y := by decide

theorem plain_text_fixed :
    get_valid_notion_language (str "plain text") = str "plain text" := by decide

/-! ## Lemmas: totality of `format_for_notion` -/

/-- Well-formedness of the `current_code_block` accumulator: when present
it has the exact shape built by the fence-open branch and extended by
`pushRun`. -/
def CbWF : Option Value → Prop
  | none => True
  | some v => ∃ lang runs, v = codeBlockV lang runs

theorem pushRun_codeBlockV (lang : Str) (runs : List Value) (r : Value) :
    pushRun (codeBlockV lang runs) r = some (codeBlockV lang (runs ++ [r])) := rfl

theorem formatStep_total (st : FState) (l : Str) (h : CbWF st.cur) :
    ∃ st2, formatStep st l = some st2 ∧ CbWF st2.cur := by
  unfold formatStep
  by_cases h1 : startsWith (trimEnd l) (str "```") = true ∧ (st.cur).isNone = true
  · rw [if_pos h1]
    exact ⟨_, rfl, ⟨_, _, rfl⟩⟩
  · rw [if_neg h1]
    by_cases h2 : trim (trimEnd l) = str "```" ∧ (st.cur).isSome = true
    · rw [if_pos h2]
      rcases hcur : st.cur with _ | cb
      · rw [hcur] at h2
        simp at h2
      · exact ⟨_, rfl, trivial⟩
    · rw [if_neg h2]
      rcases hcur : st.cur with _ | cb
      · simp only
        split_ifs <;> try exact ⟨_, rfl, trivial⟩
        cases numMarkLen (trimEnd l) <;> exact ⟨_, rfl, trivial⟩
      · rw [hcur] at h
        obtain ⟨lang, runs, rfl⟩ := h
        simp only [pushRun_codeBlockV]
        exact ⟨_, rfl, ⟨lang, runs ++ [richTextRun (trimEnd l ++ ['\n'])], rfl⟩⟩

theorem foldlM_formatStep_total (lines : List Str) (st : FState) (h : CbWF st.cur) :
    ∃ st2, lines.foldlM formatStep st = some st2 ∧ CbWF st2.cur := by
  induction lines generalizing st with
  | nil => exact ⟨st, rfl, h⟩
  | cons l ls ih =>
    obtain ⟨st1, hst1, hwf1⟩ := formatStep_total st l h
    obtain ⟨st2, hst2, hwf2⟩ := ih st1 hwf1
    refine ⟨st2, ?_, hwf2⟩
    rw [List.foldlM_cons, hst1]
    exact hst2

/-! ## Lemmas: code-block handling in `format_for_notion` -/

theorem get_valid_trim (x : Str) :
    get_valid_notion_language (trim x) = get_valid_notion_language x := by
  simp only [get_valid_notion_language, trim_trim]

theorem no_nl_tick_append (L : Str) (hL : '\n' ∉ L) : '\n' ∉ str "```" ++ L := by
  intro hmem
  rcases List.mem_append.mp hmem with h | h
  · exact absurd h (by decide)
  · exact hL h

/-- A fence-open line while no code block is open starts a fresh
accumulator with the normalized language tag. -/
theorem formatStep_open (st : FState) (L : Str) (h : st.cur = none) :
    formatStep st (str "```" ++ L) =
      some { st with cur := some (codeBlockV (get_valid_notion_language (trim L)) []) } := by
  unfold formatStep
  rw [trimEnd_tick_append]
  rw [if_pos ⟨startsWith_tick_append (trimEnd L), by rw [h]; rfl⟩]
  rw [show (3 : Nat) = (str "```").length from rfl, List.drop_left, trim_trimEnd]

/-- A line whose full trim is not the bare fence marker is captured into
the open accumulator, right-trimmed with a newline appended. -/
theorem formatStep_capture (st : FState) (lang : Str) (runs : List Value) (l : Str)
    (hcur : st.cur = some (codeBlockV lang runs)) (hns : trim l ≠ str "```") :
    formatStep st l =
      some { st with
        cur := some (codeBlockV lang (runs ++ [richTextRun (trimEnd l ++ ['\n'])])) } := by
  unfold formatStep
  rw [if_neg (by simp [hcur]),
    if_neg (fun hc => hns ((trim_trimEnd l).symm.trans hc.1)), hcur]
  simp only [pushRun_codeBlockV]

/-- A line trimming to the bare fence marker closes the open accumulator
and emits it. -/
theorem formatStep_close (st : FState) (cb : Value) (l : Str)
    (hcur : st.cur = some cb) (hc : trim l = str "```") :
    formatStep st l = some ⟨st.blocks ++ [cb], none⟩ := by
  unfold formatStep
  rw [if_neg (by simp [hcur]),
    if_pos ⟨(trim_trimEnd l).trans hc, by rw [hcur]; rfl⟩, hcur]

theorem foldlM_capture (body : List Str) (blocks : List Value) (lang : Str)
    (runs : List Value) (hb : ∀ l ∈ body, trim l ≠ str "```") :
    body.foldlM formatStep ⟨blocks, some (codeBlockV lang runs)⟩ =
      some ⟨blocks, some (codeBlockV lang
        (runs ++ body.map (fun l => richTextRun (trimEnd l ++ ['\n']))))⟩ := by
  induction body generalizing runs with
  | nil => simp
  | cons l ls ih =>
    rw [List.foldlM_cons,
      formatStep_capture ⟨blocks, some (codeBlockV lang runs)⟩ lang runs l rfl
        (hb l (List.mem_cons_self _ _))]
    show (Option.some _ >>= fun init => List.foldlM formatStep init ls) = _
    rw [Option.bind_eq_bind, Option.some_bind,
      ih (runs ++ [richTextRun (trimEnd l ++ ['\n'])])
        (fun x hx => hb x (List.mem_cons_of_mem _ hx))]
    simp [List.append_assoc]

/-! ## Lemmas: chunk shapes produced by `simple_split` -/

/-- A chunk consisting of one newline-free line with its appended newline
terminator. -/
def LineAtom (c : Str) : Prop := ∃ l, c = l ++ ['\n'] ∧ '\n' ∉ l

/-- A chunk whose first line (the prefix up to the first newline) trims to
a fence marker: the shape of a buffered code unit. -/
def FenceStart (c : Str) : Prop :=
  startsWith (trim (c.takeWhile (fun x => x ≠ '\n'))) (str "```") = true

/-- Every `simple_split` chunk is within the bound or one of the two
atomic shapes. -/
def Good (maxLen : Nat) (c : Str) : Prop :=
  c.length ≤ maxLen ∨ LineAtom c ∨ FenceStart c

def CurOK (maxLen : Nat) (cur : Str) : Prop := cur.length ≤ maxLen ∨ LineAtom cur

/-- The code buffer is a newline-free fence-open line, its newline, and
the rest. -/
def CCgood (cc : Str) : Prop :=
  ∃ op rest, cc = op ++ '\n' :: rest ∧ '\n' ∉ op ∧
    startsWith (trim op) (str "```") = true

def SInv (maxLen : Nat) (st : SState) : Prop :=
  (∀ c ∈ st.chunks, Good maxLen c) ∧ CurOK maxLen st.current ∧
    (st.inCode = true → CCgood st.codeCont) ∧ (st.inCode = false → st.codeCont = [])

theorem takeWhile_no_nl (op : Str) (hop : '\n' ∉ op) (z : Str) :
    (op ++ '\n' :: z).takeWhile (fun x => x ≠ '\n') = op := by
  induction op with
  | nil => simp
  | cons c cs ih =>
    have hc : c ≠ '\n' := fun h => hop (h ▸ List.mem_cons_self c cs)
    simp only [List.cons_append, List.takeWhile_cons, decide_eq_true_eq]
    rw [if_pos hc, ih (fun hm => hop (List.mem_cons_of_mem c hm))]

theorem fenceStart_unit (op z : Str) (hop : '\n' ∉ op)
    (hf : startsWith (trim op) (str "```") = true) : FenceStart (op ++ '\n' :: z) := by
  unfold FenceStart
  rw [takeWhile_no_nl op hop z]
  exact hf

theorem lineAtom_lw (l : Str) (h : '\n' ∉ l) : LineAtom (l ++ ['\n']) := ⟨l, rfl, h⟩

theorem CurOK.good {maxLen : Nat} {c : Str} (h : CurOK maxLen c) : Good maxLen c :=
  h.imp id Or.inl

theorem mem_pushCur {cs : List Str} {cur c : Str} (h : c ∈ pushCur cs cur) :
    c ∈ cs ∨ (c = cur ∧ cur ≠ []) := by
  unfold pushCur at h
  split at h
  · exact Or.inl h
  · rcases List.mem_append.mp h with h | h
    · exact Or.inl h
    · exact Or.inr ⟨List.mem_singleton.mp h, by assumption⟩

theorem pushCur_ne_nil {cs : List Str} {cur : Str} (h : cs ≠ [] ∨ cur ≠ []) :
    pushCur cs cur ≠ [] := by
  unfold pushCur
  split_ifs with hc
  · rcases h with h | h
    · exact h
    · exact absurd hc h
  · simp

theorem startsWith_tick_ne_nil {l : Str} (h : startsWith (trim l) (str "```") = true) :
    l ≠ [] := by
  intro hl
  rw [hl] at h
  exact absurd h (by decide)

theorem inCode_eq_true {st : SState} (h : ¬ st.inCode = false) : st.inCode = true := by
  revert h
  cases st.inCode <;> simp

theorem simpleStep_inv (maxLen : Nat) (st : SState) (line : Str)
    (hnl : '\n' ∉ line) (h : SInv maxLen st) :
    SInv maxLen (simpleStep maxLen st line) := by
  obtain ⟨hch, hcur, hcc, hcc0⟩ := h
  unfold simpleStep
  by_cases ht : startsWith (trim line) (str "```") = true
  · rw [if_pos ht]
    by_cases hic : st.inCode = false
    · rw [if_pos hic]
      exact ⟨hch, hcur, fun _ => ⟨line, [], rfl, hnl, ht⟩, by simp⟩
    · rw [if_neg hic]
      obtain ⟨op, rest, hcceq, hopnl, hopf⟩ := hcc (inCode_eq_true hic)
      by_cases hov : maxLen < st.current.length + (st.codeCont ++ line).length
      · rw [if_pos hov]
        refine ⟨?_, Or.inl (by simp), by simp, fun _ => rfl⟩
        intro c hcm
        rcases List.mem_append.mp hcm with hcm | hcm
        · rcases mem_pushCur hcm with hcm | ⟨rfl, -⟩
          · exact hch c hcm
          · exact hcur.good
        · rw [List.mem_singleton.mp hcm, hcceq, List.append_assoc, List.cons_append]
          exact Or.inr (Or.inr (fenceStart_unit op (rest ++ line) hopnl hopf))
      · rw [if_neg hov]
        push_neg at hov
        refine ⟨hch, Or.inl ?_, by simp, fun _ => rfl⟩
        rw [List.length_append]
        exact hov
  · rw [if_neg ht]
    by_cases hic : st.inCode = true
    · rw [if_pos hic]
      obtain ⟨op, rest, hcceq, hopnl, hopf⟩ := hcc hic
      refine ⟨hch, hcur, fun _ => ?_, by simp [hic]⟩
      exact ⟨op, rest ++ line ++ ['\n'], by rw [hcceq]; simp, hopnl, hopf⟩
    · rw [if_neg hic]
      by_cases hov : maxLen < st.current.length + (line ++ ['\n']).length
      · rw [if_pos hov]
        refine ⟨?_, Or.inr (lineAtom_lw line hnl), hcc, hcc0⟩
        intro c hcm
        rcases mem_pushCur hcm with hcm | ⟨rfl, -⟩
        · exact hch c hcm
        · exact hcur.good
      · rw [if_neg hov]
        push_neg at hov
        refine ⟨hch, Or.inl ?_, hcc, hcc0⟩
        rw [List.length_append]
        exact hov

theorem foldl_simpleStep_inv (maxLen : Nat) (lines : List Str) (st : SState)
    (hnl : ∀ l ∈ lines, '\n' ∉ l) (h : SInv maxLen st) :
    SInv maxLen (lines.foldl (simpleStep maxLen) st) := by
  induction lines generalizing st with
  | nil => exact h
  | cons l ls ih =>
    exact ih (simpleStep maxLen st l)
      (fun x hx => hnl x (List.mem_cons_of_mem _ hx))
      (simpleStep_inv maxLen st l (hnl l (List.mem_cons_self _ _)) h)

theorem finishSplit_good (maxLen : Nat) (st : SState) (hinv : SInv maxLen st) :
    ∀ c ∈ finishSplit maxLen st, Good maxLen c := by
  obtain ⟨hch, hcur, hcc, hcc0⟩ := hinv
  intro c hc
  unfold finishSplit at hc
  by_cases h0 : st.codeCont = []
  · rw [if_pos h0] at hc
    rcases mem_pushCur hc with hc | ⟨rfl, -⟩
    · exact hch c hc
    · exact hcur.good
  · rw [if_neg h0] at hc
    have hic : st.inCode = true := by
      cases hi : st.inCode
      · exact absurd (hcc0 hi) h0
      · rfl
    obtain ⟨op, rest, hcceq, hopnl, hopf⟩ := hcc hic
    by_cases hov : maxLen < st.current.length + st.codeCont.length
    · rw [if_pos hov] at hc
      rcases mem_pushCur hc with hc | ⟨rfl, -⟩
      · rcases List.mem_append.mp hc with hc | hc
        · rcases mem_pushCur hc with hc | ⟨rfl, -⟩
          · exact hch c hc
          · exact hcur.good
        · rw [List.mem_singleton.mp hc, hcceq]
          exact Or.inr (Or.inr (fenceStart_unit op rest hopnl hopf))
      · exact hcur.good
    · rw [if_neg hov] at hc
      push_neg at hov
      rcases mem_pushCur hc with hc | ⟨rfl, -⟩
      · exact hch c hc
      · refine Or.inl ?_
        rw [List.length_append]
        exact hov

theorem simple_split_good (text : Str) (maxLen : Nat) :
    ∀ c ∈ simple_split text maxLen, Good maxLen c :=
  finishSplit_good maxLen _
    (foldl_simpleStep_inv maxLen (splitNl text) _ (splitNl_no_nl text)
      ⟨by simp, Or.inl (by simp), by simp, fun _ => rfl⟩)

/-! ## Lemmas: `simple_split` always yields at least one, nonempty chunk -/

def NTriv (st : SState) : Prop :=
  st.chunks ≠ [] ∨ st.current ≠ [] ∨ st.codeCont ≠ []

theorem simpleStep_ntriv (maxLen : Nat) (st : SState) (line : Str) :
    NTriv (simpleStep maxLen st line) := by
  unfold simpleStep NTriv
  by_cases ht : startsWith (trim line) (str "```") = true
  · rw [if_pos ht]
    by_cases hic : st.inCode = false
    · rw [if_pos hic]
      right; right; simp
    · rw [if_neg hic]
      by_cases hov : maxLen < st.current.length + (st.codeCont ++ line).length
      · rw [if_pos hov]
        left; simp
      · rw [if_neg hov]
        right; left
        simp [startsWith_tick_ne_nil ht]
  · rw [if_neg ht]
    by_cases hic : st.inCode = true
    · rw [if_pos hic]
      right; right; simp
    · rw [if_neg hic]
      by_cases hov : maxLen < st.current.length + (line ++ ['\n']).length
      · rw [if_pos hov]
        right; left; simp
      · rw [if_neg hov]
        right; left; simp

theorem foldl_ntriv (maxLen : Nat) (lines : List Str) (st : SState) (hne : lines ≠ []) :
    NTriv (lines.foldl (simpleStep maxLen) st) := by
  induction lines generalizing st with
  | nil => exact absurd rfl hne
  | cons l ls ih =>
    cases ls with
    | nil => exact simpleStep_ntriv maxLen st l
    | cons y ys => exact ih (simpleStep maxLen st l) (by simp)

theorem finishSplit_ne_nil (maxLen : Nat) (st : SState) (h : NTriv st) :
    finishSplit maxLen st ≠ [] := by
  unfold finishSplit
  by_cases h0 : st.codeCont = []
  · rw [if_pos h0]
    refine pushCur_ne_nil ?_
    rcases h with h | h | h
    · exact Or.inl h
    · exact Or.inr h
    · exact absurd h0 h
  · rw [if_neg h0]
    by_cases hov : maxLen < st.current.length + st.codeCont.length
    · rw [if_pos hov]
      exact pushCur_ne_nil (Or.inl (by simp))
    · rw [if_neg hov]
      exact pushCur_ne_nil (Or.inr (by simp [h0]))

theorem simple_split_ne_nil (text : Str) (maxLen : Nat) : simple_split text maxLen ≠ [] :=
  finishSplit_ne_nil maxLen _ (foldl_ntriv maxLen (splitNl text) _ (splitNl_ne_nil text))

def ChNN (st : SState) : Prop := ∀ c ∈ st.chunks, c ≠ []

theorem simpleStep_chnn (maxLen : Nat) (st : SState) (line : Str) (h : ChNN st) :
    ChNN (simpleStep maxLen st line) := by
  unfold simpleStep
  by_cases ht : startsWith (trim line) (str "```") = true
  · rw [if_pos ht]
    by_cases hic : st.inCode = false
    · rw [if_pos hic]
      exact h
    · rw [if_neg hic]
      by_cases hov : maxLen < st.current.length + (st.codeCont ++ line).length
      · rw [if_pos hov]
        intro c hc
        rcases List.mem_append.mp hc with hc | hc
        · rcases mem_pushCur hc with hc | ⟨rfl, hne⟩
          · exact h c hc
          · exact hne
        · rw [List.mem_singleton.mp hc]
          simp [startsWith_tick_ne_nil ht]
      · rw [if_neg hov]
        exact h
  · rw [if_neg ht]
    by_cases hic : st.inCode = true
    · rw [if_pos hic]
      exact h
    · rw [if_neg hic]
      by_cases hov : maxLen < st.current.length + (line ++ ['\n']).length
      · rw [if_pos hov]
        intro c hc
        rcases mem_pushCur hc with hc | ⟨rfl, hne⟩
        · exact h c hc
        · exact hne
      · rw [if_neg hov]
        exact h

theorem foldl_chnn (maxLen : Nat) (lines : List Str) (st : SState) (h : ChNN st) :
    ChNN (lines.foldl (simpleStep maxLen) st) := by
  induction lines generalizing st with
  | nil => exact h
  | cons l ls ih => exact ih (simpleStep maxLen st l) (simpleStep_chnn maxLen st l h)

theorem finishSplit_chnn (maxLen : Nat) (st : SState) (h : ChNN st) :
    ∀ c ∈ finishSplit maxLen st, c ≠ [] := by
  intro c hc
  unfold finishSplit at hc
  by_cases h0 : st.codeCont = []
  · rw [if_pos h0] at hc
    rcases mem_pushCur hc with hc | ⟨rfl, hne⟩
    · exact h c hc
    · exact hne
  · rw [if_neg h0] at hc
    by_cases hov : maxLen < st.current.length + st.codeCont.length
    · rw [if_pos hov] at hc
      rcases mem_pushCur hc with hc | ⟨rfl, hne⟩
      · rcases List.mem_append.mp hc with hc | hc
        · rcases mem_pushCur hc with hc | ⟨rfl, hne⟩
          · exact h c hc
          · exact hne
        · rw [List.mem_singleton.mp hc]
          exact h0
      · exact hne
    · rw [if_neg hov] at hc
      rcases mem_pushCur hc with hc | ⟨rfl, hne⟩
      · exact h c hc
      · exact hne

theorem simple_split_chunk_ne_nil (text : Str) (maxLen : Nat) :
    ∀ c ∈ simple_split text maxLen, c ≠ [] :=
  finishSplit_chnn maxLen _ (foldl_chnn maxLen (splitNl text) _ (by simp [ChNN]))

/-! ## Lemmas: positions of the header-regex matches -/

/-- Well-placed match spans: starting at or after `lo`, of length at least
3, ending by `hi`, strictly ordered and nonoverlapping. -/
def PosOK (lo hi : Nat) : List (Nat × Nat) → Prop
  | [] => True
  | (a, b) :: r => lo ≤ a ∧ a + 3 ≤ b ∧ b ≤ hi ∧ PosOK (b + 1) hi r

theorem PosOK.mono_lo : ∀ {hs : List (Nat × Nat)} {lo lo2 hi : Nat},
    PosOK lo2 hi hs → lo ≤ lo2 → PosOK lo hi hs
  | [], _, _, _, _, _ => trivial
  | (_, _) :: _, _, _, _, h, hle =>
    ⟨le_trans hle h.1, h.2.1, h.2.2.1, h.2.2.2⟩

theorem PosOK.mono_hi : ∀ {hs : List (Nat × Nat)} {lo hi hi2 : Nat},
    PosOK lo hi hs → hi ≤ hi2 → PosOK lo hi2 hs
  | [], _, _, _, _, _ => trivial
  | (_, _) :: _, _, _, _, h, hle =>
    ⟨h.1, h.2.1, le_trans h.2.2.1 hle, PosOK.mono_hi h.2.2.2 hle⟩

theorem headerMatchLen_bounds {s : Str} {len : Nat} (h : headerMatchLen s = some len) :
    3 ≤ len ∧ len ≤ s.length := by
  simp only [headerMatchLen] at h
  split_ifs at h with hcond
  · injection h with h
    obtain ⟨hk1, hk3, hws, hbody⟩ := hcond
    have hk_lt : (s.takeWhile (fun c => c = '#')).length < s.length := by
      by_contra hge
      push_neg at hge
      rw [List.drop_eq_nil_of_le hge] at hws
      simp at hws
    have hbody_le :
        ((s.drop ((s.takeWhile (fun c => c = '#')).length + 1)).takeWhile
            (fun x => x ≠ '\n')).length ≤
          s.length - ((s.takeWhile (fun c => c = '#')).length + 1) := by
      refine le_trans (List.takeWhile_sublist _).length_le ?_
      rw [List.length_drop]
    omega

theorem findHeadersAux_nil (fuel p : Nat) : findHeadersAux fuel [] p = [] := by
  cases fuel <;> rfl

theorem findHeadersAux_posOK :
    ∀ (fuel : Nat) (s : Str) (p : Nat), s.length < fuel →
      PosOK p (p + s.length) (findHeadersAux fuel s p) := by
  intro fuel
  induction fuel with
  | zero => exact fun s p h => absurd h (Nat.not_lt_zero _)
  | succ fuel ih =>
    intro s p hlen
    cases s with
    | nil =>
      simp only [findHeadersAux]
      trivial
    | cons c cs =>
      rcases hm : headerMatchLen (c :: cs) with _ | len
      · simp only [findHeadersAux, hm]
        by_cases hsk :
            ((c :: cs).takeWhile (fun x => x ≠ '\n')).length + 1 ≤ (c :: cs).length
        · have hrec := ih ((c :: cs).drop
              (((c :: cs).takeWhile (fun x => x ≠ '\n')).length + 1))
            (p + (((c :: cs).takeWhile (fun x => x ≠ '\n')).length + 1))
            (by
              rw [List.length_drop]
              simp only [List.length_cons] at hlen ⊢
              omega)
          refine (hrec.mono_hi ?_).mono_lo (Nat.le_add_right p _)
          rw [List.length_drop]
          omega
        · rw [List.drop_eq_nil_of_le (by omega), findHeadersAux_nil]
          trivial
      · obtain ⟨hlen3, hlenle⟩ := headerMatchLen_bounds hm
        simp only [findHeadersAux, hm, PosOK]
        refine ⟨le_refl p, by omega, by omega, ?_⟩
        by_cases hsk : len + 1 ≤ (c :: cs).length
        · have hrec := ih ((c :: cs).drop (len + 1)) (p + len + 1)
            (by
              rw [List.length_drop]
              simp only [List.length_cons] at hlen ⊢
              omega)
          refine (hrec.mono_hi ?_).mono_lo (by omega)
          rw [List.length_drop]
          omega
        · rw [List.drop_eq_nil_of_le (by omega), findHeadersAux_nil]
          trivial

theorem findHeaders_posOK (text : Str) : PosOK 0 text.length (findHeaders text) := by
  have h := findHeadersAux_posOK (text.length + 1) text 0 (Nat.lt_succ_self _)
  rw [Nat.zero_add] at h
  exact h

/-! ## Lemmas: the header-walking loop -/

/-- Invariant of the header walk: a nonempty buffer, nonempty flushed
parts, and a last position inside the text. -/
def HInv (tlen : Nat) (st : HState) : Prop :=
  st.current ≠ [] ∧ (∀ c ∈ st.parts, c ≠ []) ∧ st.lastPos < tlen

theorem drop_ne_nil {t : Str} {a : Nat} (h : a < t.length) : t.drop a ≠ [] := by
  intro hh
  have hl := congrArg List.length hh
  rw [List.length_drop] at hl
  simp at hl
  omega

theorem slice_ne_nil {t : Str} {a b : Nat} (hab : a < b) (hat : a < t.length) :
    slice t a b ≠ [] := by
  intro h
  have hl := congrArg List.length h
  rw [slice, List.length_take, List.length_drop] at hl
  simp only [List.length_nil, Nat.min_eq_zero_iff] at hl
  omega

theorem headerStep_pos (text : Str) (maxLen : Nat) (st : HState) (i a b : Nat)
    (hi : 0 < i) (hcur : st.current ≠ []) (hslice : slice text st.lastPos a ≠ []) :
    headerStep text maxLen st (i, a, b) =
      if maxLen < st.current.length + (slice text st.lastPos a).length then
        ⟨st.parts ++ [st.current], a, slice text st.lastPos a⟩
      else ⟨st.parts, a, st.current ++ slice text st.lastPos a⟩ := by
  unfold headerStep headerSeed headerAppend
  rw [if_pos hi]
  by_cases hov : maxLen < st.current.length + (slice text st.lastPos a).length
  · rw [if_pos hov, if_pos hov, if_neg hslice]
  · rw [if_neg hov, if_neg hov, if_neg (by simp [hcur])]

theorem headerStep_first (text : Str) (maxLen : Nat) (a b : Nat) :
    headerStep text maxLen ⟨[], 0, []⟩ (0, a, b) = ⟨[], a, text.drop a⟩ := by
  simp [headerStep, headerSeed, headerAppend]

theorem foldl_headerStep_hinv (text : Str) (maxLen : Nat) :
    ∀ (hs : List (Nat × Nat)) (i : Nat) (st : HState), 1 ≤ i →
      PosOK (st.lastPos + 1) text.length hs → HInv text.length st →
      HInv text.length ((List.enumFrom i hs).foldl (headerStep text maxLen) st) := by
  intro hs
  induction hs with
  | nil => exact fun i st _ _ h => h
  | cons p r ih =>
    obtain ⟨a, b⟩ := p
    intro i st hi hpos h
    obtain ⟨hcur, hparts, hlast⟩ := h
    obtain ⟨h1, h2, h3, h4⟩ := hpos
    rw [List.enumFrom_cons, List.foldl_cons,
      headerStep_pos text maxLen st i a b (by omega) hcur
        (slice_ne_nil (by omega) hlast)]
    by_cases hov : maxLen < st.current.length + (slice text st.lastPos a).length
    · rw [if_pos hov]
      refine ih (i + 1) _ (by omega)
        (h4.mono_lo (show a + 1 ≤ b + 1 by omega)) ?_
      refine ⟨slice_ne_nil (by omega) hlast, ?_, show a < text.length by omega⟩
      intro c hc
      rcases List.mem_append.mp hc with hc | hc
      · exact hparts c hc
      · rw [List.mem_singleton.mp hc]
        exact hcur
    · rw [if_neg hov]
      refine ih (i + 1) _ (by omega)
        (h4.mono_lo (show a + 1 ≤ b + 1 by omega)) ?_
      exact ⟨by simp [hcur], hparts, show a < text.length by omega⟩

theorem headerPath_hinv (text : Str) (maxLen : Nat) (a b : Nat) (r : List (Nat × Nat))
    (hpos : PosOK 0 text.length ((a, b) :: r)) :
    HInv text.length (((a, b) :: r).enum.foldl (headerStep text maxLen) ⟨[], 0, []⟩) := by
  obtain ⟨-, h2, h3, h4⟩ := hpos
  rw [List.enum_cons, List.foldl_cons, headerStep_first text maxLen a b]
  refine foldl_headerStep_hinv text maxLen r 1 ⟨[], a, text.drop a⟩ (le_refl 1)
    (h4.mono_lo (show a + 1 ≤ b + 1 by omega)) ?_
  exact ⟨drop_ne_nil (by omega), by simp, show a < text.length by omega⟩

theorem headerParts_props (text : Str) (maxLen : Nat) (st : HState)
    (h : HInv text.length st) :
    headerParts text maxLen st ≠ [] ∧ ∀ c ∈ headerParts text maxLen st, c ≠ [] := by
  obtain ⟨hcur, hparts, hlast⟩ := h
  unfold headerParts
  rw [if_pos hlast]
  by_cases hov : maxLen < st.current.length + (text.drop st.lastPos).length
  · rw [if_pos hov]
    refine ⟨by simp, ?_⟩
    intro c hc
    rcases List.mem_append.mp hc with hc | hc
    · exact hparts c hc
    · rcases List.mem_cons.mp hc with rfl | hc
      · exact hcur
      · rw [List.mem_singleton.mp hc]
        exact drop_ne_nil hlast
  · rw [if_neg hov]
    refine ⟨by simp, ?_⟩
    intro c hc
    rcases List.mem_append.mp hc with hc | hc
    · exact hparts c hc
    · rw [List.mem_singleton.mp hc]
      simp [hcur]

/-! ## Lemmas: the post-pass -/

theorem postPass_ne_nil (maxLen : Nat) (parts : List Str) (hne : parts ≠ []) :
    postPass maxLen parts ≠ [] := by
  unfold postPass
  cases parts with
  | nil => exact absurd rfl hne
  | cons q qs =>
    rw [List.map_cons, List.flatten_cons]
    intro h
    rcases List.append_eq_nil.mp h with ⟨h1, -⟩
    by_cases hq : maxLen < q.length
    · rw [if_pos hq] at h1
      exact simple_split_ne_nil q maxLen h1
    · rw [if_neg hq] at h1
      cases h1

theorem postPass_mem {maxLen : Nat} {parts : List Str} {c : Str}
    (hc : c ∈ postPass maxLen parts) :
    ∃ q ∈ parts, (c = q ∧ q.length ≤ maxLen) ∨
      (c ∈ simple_split q maxLen ∧ maxLen < q.length) := by
  unfold postPass at hc
  rw [List.mem_flatten] at hc
  obtain ⟨l, hl, hcl⟩ := hc
  rw [List.mem_map] at hl
  obtain ⟨q, hq, rfl⟩ := hl
  refine ⟨q, hq, ?_⟩
  by_cases hlen : maxLen < q.length
  · rw [if_pos hlen] at hcl
    exact Or.inr ⟨hcl, hlen⟩
  · rw [if_neg hlen] at hcl
    exact Or.inl ⟨List.mem_singleton.mp hcl, by omega⟩

/-! ## Lemmas: `split_content` level properties -/

theorem split_content_good (text : Str) (maxLen : Nat) :
    ∀ c ∈ split_content text maxLen, Good maxLen c := by
  intro c hc
  unfold split_content at hc
  by_cases h1 : text.length ≤ maxLen
  · rw [if_pos h1] at hc
    rw [List.mem_singleton.mp hc]
    exact Or.inl h1
  · rw [if_neg h1] at hc
    by_cases h2 : findHeaders text = []
    · rw [if_pos h2] at hc
      exact simple_split_good text maxLen c hc
    · rw [if_neg h2] at hc
      obtain ⟨q, hq, hcq⟩ := postPass_mem hc
      rcases hcq with ⟨rfl, hle⟩ | ⟨hcs, -⟩
      · exact Or.inl hle
      · exact simple_split_good q maxLen c hcs

theorem split_content_ne_nil (text : Str) (maxLen : Nat) :
    split_content text maxLen ≠ [] := by
  unfold split_content
  by_cases h1 : text.length ≤ maxLen
  · rw [if_pos h1]
    simp
  · rw [if_neg h1]
    by_cases h2 : findHeaders text = []
    · rw [if_pos h2]
      exact simple_split_ne_nil text maxLen
    · rw [if_neg h2]
      rcases hh : findHeaders text with _ | ⟨⟨a, b⟩, r⟩
      · exact absurd hh h2
      · exact postPass_ne_nil maxLen _
          (headerParts_props text maxLen _
            (headerPath_hinv text maxLen a b r (hh ▸ findHeaders_posOK text))).1

theorem split_content_chunk_ne_nil (text : Str) (maxLen : Nat) (ht : text ≠ []) :
    ∀ c ∈ split_content text maxLen, c ≠ [] := by
  intro c hc
  unfold split_content at hc
  by_cases h1 : text.length ≤ maxLen
  · rw [if_pos h1] at hc
    rw [List.mem_singleton.mp hc]
    exact ht
  · rw [if_neg h1] at hc
    by_cases h2 : findHeaders text = []
    · rw [if_pos h2] at hc
      exact simple_split_chunk_ne_nil text maxLen c hc
    · rw [if_neg h2] at hc
      rcases hh : findHeaders text with _ | ⟨⟨a, b⟩, r⟩
      · exact absurd hh h2
      · rw [hh] at hc
        have hp := headerParts_props text maxLen _
          (headerPath_hinv text maxLen a b r (hh ▸ findHeaders_posOK text))
        obtain ⟨q, hq, hcq⟩ := postPass_mem hc
        rcases hcq with ⟨rfl, -⟩ | ⟨hcs, -⟩
        · exact hp.2 c hq
        · exact simple_split_chunk_ne_nil q maxLen c hcs

theorem split_content_nil (maxLen : Nat) : split_content [] maxLen = [[]] := by
  unfold split_content
  rw [if_pos (by simp)]

/-! ## Lemmas: fence-unit atomicity in `simple_split` -/

/-- The complete buffered code unit of a balanced fence: the opening
line, each body line with its newline, and the closing line (without a
trailing newline), exactly as assembled by `simple_split`. -/
def codeUnit (openL : Str) (body : List Str) (closeL : Str) : Str :=
  openL ++ '\n' :: ((body.map (fun l => l ++ ['\n'])).flatten ++ closeL)

theorem codeUnit_ne_nil (openL : Str) (body : List Str) (closeL : Str) :
    codeUnit openL body closeL ≠ [] := by
  simp [codeUnit]

theorem mem_pushCur_left {cs : List Str} {cur c : Str} (h : c ∈ cs) :
    c ∈ pushCur cs cur := by
  unfold pushCur
  split_ifs <;> simp [h]

theorem mem_pushCur_self {cs : List Str} {cur : Str} (h : cur ≠ []) :
    cur ∈ pushCur cs cur := by
  unfold pushCur
  rw [if_neg h]
  simp

theorem infix_append_right {u x y : Str} (h : u <:+: x) : u <:+: x ++ y :=
  h.trans (List.prefix_append x y).isInfix

theorem infix_append_left {u x y : Str} (h : u <:+: x) : u <:+: y ++ x :=
  h.trans (List.suffix_append y x).isInfix

theorem infix_ne_nil {u x : Str} (hu : u ≠ []) (h : u <:+: x) : x ≠ [] := by
  intro hx
  rw [hx] at h
  have hl := h.length_le
  simp at hl
  exact hu hl

/-- Tracking a fully assembled unit: it is inside an already flushed chunk
or inside the current buffer. -/
def TrackU (u : Str) (st : SState) : Prop :=
  (∃ c ∈ st.chunks, u <:+: c) ∨ u <:+: st.current

theorem simpleStep_open (maxLen : Nat) (st : SState) (l : Str)
    (hic : st.inCode = false) (ht : startsWith (trim l) (str "```") = true) :
    simpleStep maxLen st l = { st with inCode := true, codeCont := l ++ ['\n'] } := by
  unfold simpleStep
  rw [if_pos ht, if_pos hic]

theorem simpleStep_close (maxLen : Nat) (st : SState) (l : Str)
    (hic : st.inCode = true) (ht : startsWith (trim l) (str "```") = true) :
    simpleStep maxLen st l =
      if maxLen < st.current.length + (st.codeCont ++ l).length then
        ⟨pushCur st.chunks st.current ++ [st.codeCont ++ l], [], false, []⟩
      else ⟨st.chunks, st.current ++ (st.codeCont ++ l), false, []⟩ := by
  unfold simpleStep
  rw [if_pos ht, if_neg (by simp [hic])]

theorem simpleStep_toggle (maxLen : Nat) (st : SState) (l : Str)
    (ht : startsWith (trim l) (str "```") = true) :
    (simpleStep maxLen st l).inCode = ! st.inCode ∧
      ((simpleStep maxLen st l).inCode = false →
        (simpleStep maxLen st l).codeCont = []) := by
  cases hic : st.inCode
  · rw [simpleStep_open maxLen st l hic ht]
    exact ⟨by simp [hic], by simp⟩
  · rw [simpleStep_close maxLen st l hic ht]
    by_cases hov : maxLen < st.current.length + (st.codeCont ++ l).length
    · rw [if_pos hov]
      exact ⟨by simp [hic], fun _ => rfl⟩
    · rw [if_neg hov]
      exact ⟨by simp [hic], fun _ => rfl⟩

theorem simpleStep_nontoggle (maxLen : Nat) (st : SState) (l : Str)
    (ht : ¬ startsWith (trim l) (str "```") = true) :
    (simpleStep maxLen st l).inCode = st.inCode ∧
      (st.inCode = false → (simpleStep maxLen st l).codeCont = st.codeCont) := by
  unfold simpleStep
  rw [if_neg ht]
  by_cases hic : st.inCode = true
  · rw [if_pos hic]
    exact ⟨rfl, fun h => by rw [h] at hic; cases hic⟩
  · rw [if_neg hic]
    by_cases hov : maxLen < st.current.length + (l ++ ['\n']).length
    · rw [if_pos hov]
      exact ⟨rfl, fun _ => rfl⟩
    · rw [if_neg hov]
      exact ⟨rfl, fun _ => rfl⟩

/-- Processing lines with an even number of fence toggles from a clean
state returns to a clean state. -/
theorem foldl_parity (maxLen : Nat) :
    ∀ (lines : List Str) (st : SState),
      (st.inCode = false → st.codeCont = []) →
      ((lines.filter (fun l => startsWith (trim l) (str "```"))).length +
          (if st.inCode = true then 1 else 0)) % 2 = 0 →
      (lines.foldl (simpleStep maxLen) st).inCode = false ∧
        (lines.foldl (simpleStep maxLen) st).codeCont = [] := by
  intro lines
  induction lines with
  | nil =>
    intro st hcc hp
    rw [List.foldl_nil]
    cases hic : st.inCode
    · exact ⟨rfl, hcc hic⟩
    · rw [List.filter_nil, hic] at hp
      simp at hp
  | cons l ls ih =>
    intro st hcc hp
    rw [List.foldl_cons]
    by_cases ht : startsWith (trim l) (str "```") = true
    · obtain ⟨hflip, hinv2⟩ := simpleStep_toggle maxLen st l ht
      refine ih (simpleStep maxLen st l) hinv2 ?_
      rw [List.filter_cons, if_pos ht, List.length_cons] at hp
      rw [hflip]
      cases hic : st.inCode
      · rw [hic] at hp
        simp at hp ⊢
        omega
      · rw [hic] at hp
        simp at hp ⊢
        omega
    · obtain ⟨hsame, hccpres⟩ := simpleStep_nontoggle maxLen st l ht
      refine ih (simpleStep maxLen st l) ?_ ?_
      · intro hf
        have hf2 : st.inCode = false := hsame.symm.trans hf
        rw [hccpres hf2]
        exact hcc hf2
      · rw [List.filter_cons, if_neg ht] at hp
        rw [hsame]
        exact hp

/-- Buffering the body of an open fence. -/
theorem foldl_capture_simple (maxLen : Nat) :
    ∀ (body : List Str) (st : SState), st.inCode = true →
      (∀ l ∈ body, ¬ startsWith (trim l) (str "```") = true) →
      body.foldl (simpleStep maxLen) st =
        { st with codeCont := st.codeCont ++ (body.map (fun l => l ++ ['\n'])).flatten } := by
  intro body
  induction body with
  | nil =>
    intro st _ _
    simp
  | cons l ls ih =>
    intro st hic hb
    rw [List.foldl_cons]
    have hstep : simpleStep maxLen st l = { st with codeCont := st.codeCont ++ l ++ ['\n'] } := by
      unfold simpleStep
      rw [if_neg (hb l (List.mem_cons_self _ _)), if_pos hic]
    rw [hstep, ih { st with codeCont := st.codeCont ++ l ++ ['\n'] } hic
      (fun x hx => hb x (List.mem_cons_of_mem _ hx))]
    simp [List.append_assoc]

/-- Processing a complete balanced fence assembles exactly its code unit
and flushes it whole into a chunk or the current buffer. -/
theorem foldl_fence_unit (maxLen : Nat) (st : SState) (openL closeL : Str)
    (body : List Str) (hic : st.inCode = false)
    (hopen : startsWith (trim openL) (str "```") = true)
    (hbody : ∀ l ∈ body, ¬ startsWith (trim l) (str "```") = true)
    (hclose : startsWith (trim closeL) (str "```") = true) :
    ((openL :: (body ++ [closeL])).foldl (simpleStep maxLen) st).inCode = false ∧
      ((openL :: (body ++ [closeL])).foldl (simpleStep maxLen) st).codeCont = [] ∧
      TrackU (codeUnit openL body closeL)
        ((openL :: (body ++ [closeL])).foldl (simpleStep maxLen) st) := by
  rw [List.foldl_cons, simpleStep_open maxLen st openL hic hopen, List.foldl_append,
    foldl_capture_simple maxLen body _ rfl hbody]
  have hunit : ((openL ++ ['\n']) ++ (body.map (fun l => l ++ ['\n'])).flatten) ++ closeL =
      codeUnit openL body closeL := by
    simp [codeUnit, List.append_assoc]
  rw [List.foldl_cons, List.foldl_nil,
    simpleStep_close maxLen _ closeL rfl hclose]
  split_ifs with hov
  · refine ⟨rfl, rfl, Or.inl
      ⟨_, List.mem_append_right _ (List.mem_singleton.mpr rfl), ?_⟩⟩
    show codeUnit openL body closeL <:+:
      ((openL ++ ['\n']) ++ (body.map (fun l => l ++ ['\n'])).flatten) ++ closeL
    rw [hunit]
  · refine ⟨rfl, rfl, Or.inr ?_⟩
    show codeUnit openL body closeL <:+:
      st.current ++ (((openL ++ ['\n']) ++ (body.map (fun l => l ++ ['\n'])).flatten) ++ closeL)
    rw [hunit]
    exact (List.suffix_append _ _).isInfix

/-- Once the unit is tracked, later lines never break it apart. -/
theorem simpleStep_trackU (maxLen : Nat) (st : SState) (l u : Str) (hu : u ≠ [])
    (h : TrackU u st) : TrackU u (simpleStep maxLen st l) := by
  unfold simpleStep
  by_cases ht : startsWith (trim l) (str "```") = true
  · rw [if_pos ht]
    by_cases hic : st.inCode = false
    · rw [if_pos hic]
      exact h
    · rw [if_neg hic]
      by_cases hov : maxLen < st.current.length + (st.codeCont ++ l).length
      · rw [if_pos hov]
        rcases h with ⟨c, hc, hin⟩ | hin
        · exact Or.inl ⟨c, List.mem_append_left _ (mem_pushCur_left hc), hin⟩
        · exact Or.inl ⟨st.current,
            List.mem_append_left _ (mem_pushCur_self (infix_ne_nil hu hin)), hin⟩
      · rw [if_neg hov]
        rcases h with ⟨c, hc, hin⟩ | hin
        · exact Or.inl ⟨c, hc, hin⟩
        · exact Or.inr (infix_append_right hin)
  · rw [if_neg ht]
    by_cases hic : st.inCode = true
    · rw [if_pos hic]
      exact h
    · rw [if_neg hic]
      by_cases hov : maxLen < st.current.length + (l ++ ['\n']).length
      · rw [if_pos hov]
        rcases h with ⟨c, hc, hin⟩ | hin
        · exact Or.inl ⟨c, mem_pushCur_left hc, hin⟩
        · exact Or.inl ⟨st.current, mem_pushCur_self (infix_ne_nil hu hin), hin⟩
      · rw [if_neg hov]
        rcases h with ⟨c, hc, hin⟩ | hin
        · exact Or.inl ⟨c, hc, hin⟩
        · exact Or.inr (infix_append_right hin)

theorem foldl_trackU (maxLen : Nat) (lines : List Str) (st : SState) (u : Str)
    (hu : u ≠ []) (h : TrackU u st) :
    TrackU u (lines.foldl (simpleStep maxLen) st) := by
  induction lines generalizing st with
  | nil => exact h
  | cons l ls ih =>
    exact ih (simpleStep maxLen st l) (simpleStep_trackU maxLen st l u hu h)

theorem finishSplit_trackU (maxLen : Nat) (st : SState) (u : Str) (hu : u ≠ [])
    (h : TrackU u st) : ∃ c ∈ finishSplit maxLen st, u <:+: c := by
  unfold finishSplit
  by_cases h0 : st.codeCont = []
  · rw [if_pos h0]
    rcases h with ⟨c, hc, hin⟩ | hin
    · exact ⟨c, mem_pushCur_left hc, hin⟩
    · exact ⟨st.current, mem_pushCur_self (infix_ne_nil hu hin), hin⟩
  · rw [if_neg h0]
    by_cases hov : maxLen < st.current.length + st.codeCont.length
    · rw [if_pos hov]
      rcases h with ⟨c, hc, hin⟩ | hin
      · exact ⟨c, mem_pushCur_left (List.mem_append_left _ (mem_pushCur_left hc)), hin⟩
      · exact ⟨st.current, mem_pushCur_self (infix_ne_nil hu hin), hin⟩
    · rw [if_neg hov]
      rcases h with ⟨c, hc, hin⟩ | hin
      · exact ⟨c, mem_pushCur_left hc, hin⟩
      · exact ⟨st.current ++ st.codeCont,
          mem_pushCur_self (by simp [infix_ne_nil hu hin]), infix_append_right hin⟩

theorem simple_split_fence (text : Str) (maxLen : Nat) (pre body post : List Str)
    (openL closeL : Str)
    (hsplit : splitNl text = pre ++ openL :: (body ++ closeL :: post))
    (hparity : (pre.filter (fun l => startsWith (trim l) (str "```"))).length % 2 = 0)
    (hopen : startsWith (trim openL) (str "```") = true)
    (hbody : ∀ l ∈ body, ¬ startsWith (trim l) (str "```") = true)
    (hclose : startsWith (trim closeL) (str "```") = true) :
    ∃ c ∈ simple_split text maxLen, codeUnit openL body closeL <:+: c := by
  unfold simple_split
  rw [hsplit]
  have hassoc : pre ++ openL :: (body ++ closeL :: post) =
      (pre ++ (openL :: (body ++ [closeL]))) ++ post := by
    simp
  rw [hassoc, List.foldl_append, List.foldl_append]
  have hpre := foldl_parity maxLen pre ⟨[], [], false, []⟩ (fun _ => rfl)
    (by simpa using hparity)
  obtain ⟨hic2, hcc2, htrack⟩ := foldl_fence_unit maxLen _ openL closeL body hpre.1
    hopen hbody hclose
  exact finishSplit_trackU maxLen _ _ (codeUnit_ne_nil openL body closeL)
    (foldl_trackU maxLen post _ _ (codeUnit_ne_nil openL body closeL) htrack)

/-! ## Lemmas: the code unit inside the joined text -/

theorem flatten_closeL_prefix_joinNl (closeL : Str) (post : List Str) :
    ∀ (body : List Str),
      (body.map (fun l => l ++ ['\n'])).flatten ++ closeL <+:
        joinNl (body ++ closeL :: post) := by
  intro body
  induction body with
  | nil =>
    rw [List.map_nil, List.flatten_nil, List.nil_append, List.nil_append, joinNl_cons]
    by_cases hp : post = []
    · rw [if_pos hp]
    · rw [if_neg hp]
      exact List.prefix_append _ _
  | cons b bs ih =>
    rw [List.map_cons, List.flatten_cons, List.cons_append, joinNl_cons,
      if_neg (by simp)]
    obtain ⟨t, ht⟩ := ih
    refine ⟨t, ?_⟩
    rw [← ht]
    simp [List.append_assoc]

theorem codeUnit_infix_joinNl (pre body post : List Str) (openL closeL : Str) :
    codeUnit openL body closeL <:+: joinNl (pre ++ openL :: (body ++ closeL :: post)) := by
  induction pre with
  | nil =>
    rw [List.nil_append, joinNl_cons, if_neg (by simp)]
    refine List.IsPrefix.isInfix ?_
    obtain ⟨t, ht⟩ := flatten_closeL_prefix_joinNl closeL post body
    refine ⟨t, ?_⟩
    rw [codeUnit, ← ht]
    simp
  | cons p pre ih =>
    rw [List.cons_append, joinNl_cons, if_neg (by simp)]
    have : codeUnit openL body closeL <:+: (p ++ ['\n']) ++ joinNl (pre ++ openL :: (body ++ closeL :: post)) :=
      infix_append_left ih
    simpa [List.append_assoc] using this

theorem split_content_fence (text : Str) (maxLen : Nat) (pre body post : List Str)
    (openL closeL : Str)
    (hsplit : splitNl text = pre ++ openL :: (body ++ closeL :: post))
    (hheads : findHeaders text = [])
    (hparity : (pre.filter (fun l => startsWith (trim l) (str "```"))).length % 2 = 0)
    (hopen : startsWith (trim openL) (str "```") = true)
    (hbody : ∀ l ∈ body, ¬ startsWith (trim l) (str "```") = true)
    (hclose : startsWith (trim closeL) (str "```") = true) :
    ∃ c ∈ split_content text maxLen, codeUnit openL body closeL <:+: c := by
  unfold split_content
  by_cases h1 : text.length ≤ maxLen
  · rw [if_pos h1]
    refine ⟨text, List.mem_singleton.mpr rfl, ?_⟩
    have hj : joinNl (pre ++ openL :: (body ++ closeL :: post)) = text := by
      rw [← hsplit]
      exact joinNl_splitNl text
    exact hj ▸ codeUnit_infix_joinNl pre body post openL closeL
  · rw [if_neg h1, if_pos hheads]
    exact simple_split_fence text maxLen pre body post openL closeL hsplit hparity
      hopen hbody hclose

/-! ## Lemmas: `split_content` on a single long uniform line (for C4) -/

theorem simple_split_single_long_line (l : Str) (maxLen : Nat) (hnl : '\n' ∉ l)
    (hfence : startsWith (trim l) (str "```") = false)
    (hov : maxLen < l.length + 1) :
    simple_split l maxLen = [l ++ ['\n']] := by
  unfold simple_split
  rw [splitNl_single l hnl, List.foldl_cons, List.foldl_nil]
  unfold simpleStep
  rw [if_neg (by simp [hfence]), if_neg (by simp),
    if_pos (show maxLen < (SState.current ⟨[], [], false, []⟩).length + (l ++ ['\n']).length by
      simp
      omega)]
  unfold finishSplit
  rw [if_pos rfl]
  unfold pushCur
  rw [if_neg (by simp)]
  rfl

theorem takeWhile_ne_nl_replicate_A (m : Nat) :
    (List.replicate m 'A').takeWhile (fun x => x ≠ '\n') = List.replicate m 'A' := by
  rw [List.takeWhile_replicate]
  simp

theorem headerMatchLen_replicate_A (m : Nat) :
    headerMatchLen (List.replicate m 'A') = none := by
  simp only [headerMatchLen]
  rw [if_neg]
  intro hcond
  have hk : ((List.replicate m 'A').takeWhile (fun c => c = '#')).length = 0 := by
    rw [List.takeWhile_replicate]
    simp
  rw [hk] at hcond
  omega

theorem findHeaders_replicate_A (n : Nat) : findHeaders (List.replicate n 'A') = [] := by
  unfold findHeaders
  cases n with
  | zero => rfl
  | succ m =>
    rw [List.length_replicate, List.replicate_succ]
    simp only [findHeadersAux, ← List.replicate_succ, headerMatchLen_replicate_A]
    rw [takeWhile_ne_nl_replicate_A, List.length_replicate,
      List.drop_eq_nil_of_le (by rw [List.length_replicate]; omega), findHeadersAux_nil]

theorem trim_replicate_A (n : Nat) : trim (List.replicate n 'A') = List.replicate n 'A' := by
  unfold trim trimStart trimEnd
  rw [List.reverse_replicate, List.dropWhile_replicate, if_neg (by decide),
    List.reverse_replicate, List.dropWhile_replicate, if_neg (by decide)]

theorem startsWith_replicate_A_tick (n : Nat) :
    startsWith (List.replicate n 'A') (str "```") = false := by
  cases n with
  | zero => decide
  | succ m =>
    rw [List.replicate_succ]
    show (str "```").isPrefixOf ('A' :: List.replicate m 'A') = false
    rw [show str "```" = ['\x60', '\x60', '\x60'] from rfl]
    simp [List.isPrefixOf]

/-- Helper for C5 and C6: processing a fence-open line, captured body
lines and a closing line (any line whose full trim is the bare fence
marker) from a state with no open code block. -/
theorem foldlM_formatStep_fence (blocks0 : List Value) (L : Str) (body : List Str)
    (cl : Str) (hb : ∀ l ∈ body, trim l ≠ str "```") (hcl : trim cl = str "```") :
    ((str "```" ++ L) :: (body ++ [cl])).foldlM formatStep ⟨blocks0, none⟩ =
      some ⟨blocks0 ++ [codeBlockV (get_valid_notion_language (trim L))
        (body.map (fun l => richTextRun (trimEnd l ++ ['\n'])))], none⟩ := by
  rw [List.foldlM_cons, formatStep_open ⟨blocks0, none⟩ L rfl]
  show (Option.some _ >>= fun s => List.foldlM formatStep s (body ++ [cl])) = _
  rw [Option.bind_eq_bind, Option.some_bind, List.foldlM_append,
    foldlM_capture body blocks0 _ [] hb]
  show (Option.some _ >>= fun s => List.foldlM formatStep s [cl]) = _
  rw [Option.bind_eq_bind, Option.some_bind, List.foldlM_cons,
    formatStep_close ⟨blocks0, some _⟩ _ cl rfl hcl]
  show (Option.some _ >>= fun s => List.foldlM formatStep s []) = _
  rw [Option.bind_eq_bind, Option.some_bind, List.foldlM_nil]
  simp

/-- Helper for C6: a fence-open line followed only by captured body lines
leaves the accumulator open with all captured runs. -/
theorem foldlM_formatStep_fence_open (blocks0 : List Value) (L : Str) (body : List Str)
    (hb : ∀ l ∈ body, trim l ≠ str "```") :
    ((str "```" ++ L) :: body).foldlM formatStep ⟨blocks0, none⟩ =
      some ⟨blocks0, some (codeBlockV (get_valid_notion_language (trim L))
        (body.map (fun l => richTextRun (trimEnd l ++ ['\n']))))⟩ := by
  rw [List.foldlM_cons, formatStep_open ⟨blocks0, none⟩ L rfl]
  show (Option.some _ >>= fun s => List.foldlM formatStep s body) = _
  rw [Option.bind_eq_bind, Option.some_bind, foldlM_capture body blocks0 _ [] hb]
  simp

/-- Splitting a fold over an append at an intermediate state. -/
theorem foldlM_formatStep_concat (pre rest : List Str) (st0 st1 : FState)
    (hpre : pre.foldlM formatStep st0 = some st1) :
    (pre ++ rest).foldlM formatStep st0 = rest.foldlM formatStep st1 := by
  rw [List.foldlM_append, hpre]
  rfl

/-! ## Claim theorems -/

/-- C1 (code_bug): the reconstruction property fails on the code.  With a
heading present, `split_content` drops the text before the first heading
and emits the suffix from the heading twice: on `"ZZZZ\n# H\nB"` with
`max_length = 4` it returns `["# H\n", "B\n", "# H\n", "B\n"]`, whose
concatenation is not the input (the `ZZZZ` prefix is gone, the rest is
doubled).  Even without headings, `simple_split` appends a newline
terminator to the final line, so on `"AB\nC"` with `max_length = 2` the
chunks concatenate to `"AB\nC\n"`, not the input. -/
theorem claim_C1_reconstruction_bug :
    split_content (str "ZZZZ\n# H\nB") 4 =
        [str "# H\n", str "B\n", str "# H\n", str "B\n"] ∧
      (split_content (str "ZZZZ\n# H\nB") 4).flatten ≠ str "ZZZZ\n# H\nB" ∧
      (split_content (str "AB\nC") 2).flatten ≠ str "AB\nC" := by
  decide

/-- C2 counterexample: on `"AAAAA\nB"` with `max_length = 5`, no line has
length exceeding 5 and no fenced unit exists, yet the chunk `"AAAAA\n"`
of length 6 is produced: the claim's exception ("a single unsplittable
line ... itself has length exceeding max_length") does not cover it, so
the claimed bound fails. -/
theorem claim_C2_counterexample :
    ¬ ∀ c ∈ split_content (str "AAAAA\nB") 5,
        c.length ≤ 5 ∨
          (∃ l ∈ splitNl (str "AAAAA\nB"), 5 < l.length ∧ (c = l ∨ c = l ++ ['\n'])) ∨
          (∃ l ∈ splitNl (str "AAAAA\nB"), startsWith (trim l) (str "```") = true) := by
  decide

/-- C2 (amended): every chunk produced by `split_content` has length at
most `max_length`, except chunks that consist of a single unsplittable
line together with its appended newline terminator, or of a single
fenced code unit (a chunk whose first line trims to a fence marker);
only such chunks may exceed the bound. -/
theorem claim_C2_amended (text : Str) (maxLen : Nat) :
    ∀ c ∈ split_content text maxLen, maxLen < c.length →
      (∃ l, c = l ++ ['\n'] ∧ '\n' ∉ l) ∨
        startsWith (trim (c.takeWhile (fun x => x ≠ '\n'))) (str "```") = true := by
  intro c hc hlen
  rcases split_content_good text maxLen c hc with h | h | h
  · omega
  · exact Or.inl h
  · exact Or.inr h

theorem claim_C2_amended_witness :
    (∃ l, str "AAAAA\n" = l ++ ['\n'] ∧ '\n' ∉ l) ∨
      startsWith (trim ((str "AAAAA\n").takeWhile (fun x => x ≠ '\n'))) (str "```") = true :=
  claim_C2_amended (str "AAAAA\nB") 5 (str "AAAAA\n") (by decide) (by decide)

/-- C3 counterexample: the input `"AAAAAAAAAAAAA\n```\n# H\n```"` contains
the fenced block `"```\n# H\n```"` of length 11, smaller than
`max_length = 12`, yet no returned chunk contains the fence intact (the
heading line inside the fence is taken as a split point, the opening
marker is dropped with the prefix, and the interior is cut from it). -/
theorem claim_C3_counterexample :
    (str "```\n# H\n```").length < 12 ∧
      slice (str "AAAAAAAAAAAAA\n```\n# H\n```") 14 25 = str "```\n# H\n```" ∧
      ¬ ∃ c ∈ split_content (str "AAAAAAAAAAAAA\n```\n# H\n```") 12,
          str "```\n# H\n```" <:+: c := by
  decide

/-- C3 (amended): for any input with no heading-regex match, containing a
balanced fenced block (an even number of fence-marker lines before the
opening line, no fence-marker line in the body), the whole fenced unit
lands intact inside a single returned chunk: no chunk cuts into its
interior and the opening and closing markers stay together. -/
theorem claim_C3_amended (text : Str) (maxLen : Nat) (pre body post : List Str)
    (openL closeL : Str)
    (hsplit : splitNl text = pre ++ openL :: (body ++ closeL :: post))
    (hheads : findHeaders text = [])
    (hparity : (pre.filter (fun l => startsWith (trim l) (str "```"))).length % 2 = 0)
    (hopen : startsWith (trim openL) (str "```") = true)
    (hbody : ∀ l ∈ body, ¬ startsWith (trim l) (str "```") = true)
    (hclose : startsWith (trim closeL) (str "```") = true)
    (_hsmall : (codeUnit openL body closeL).length < maxLen) :
    ∃ c ∈ split_content text maxLen, codeUnit openL body closeL <:+: c :=
  split_content_fence text maxLen pre body post openL closeL hsplit hheads hparity
    hopen hbody hclose

theorem claim_C3_amended_witness :
    ∃ c ∈ split_content (str "PPPPPPPPPP\n```\nq\n```") 10,
      codeUnit (str "```") [str "q"] (str "```") <:+: c :=
  claim_C3_amended (str "PPPPPPPPPP\n```\nq\n```") 10 [str "PPPPPPPPPP"] [str "q"] []
    (str "```") (str "```") (by decide) (by decide) (by decide) (by decide)
    (by decide) (by decide) (by decide)

/-- C4 (code_bug): on 3000 repeated A-characters with `max_length = 1000`
the code returns ONE chunk, equal to the whole input with a newline
appended (length 3001) — not 3 chunks of length at most 1000
reconstructing the input, as the claim (and the repository's own test
`test_split_content_large_text_no_headers`, which asserts
`chunks.len() > 1` and `chunk.len() <= 1000`) requires.  Stated below as
`claim_C4_code_behavior`, via the `simple_split` evaluation first. -/
theorem simple_split_replicate_3000 :
    simple_split (List.replicate 3000 'A') 1000 =
      [List.replicate 3000 'A' ++ ['\n']] :=
  simple_split_single_long_line (List.replicate 3000 'A') 1000
    (fun hmem => absurd (List.mem_replicate.mp hmem).2 (by decide))
    (by rw [trim_replicate_A]; exact startsWith_replicate_A_tick 3000)
    (by rw [List.length_replicate]; omega)

/-- C4 (code_bug): on 3000 repeated A-characters with `max_length = 1000`
the code returns ONE chunk, the whole input with a newline appended
(length 3001) — not 3 chunks of length at most 1000 reconstructing the
input, as the claim and the repository's own failing test require. -/
theorem claim_C4_code_behavior :
    split_content (List.replicate 3000 'A') 1000 =
      [List.replicate 3000 'A' ++ ['\n']] := by
  unfold split_content
  rw [if_neg (by rw [List.length_replicate]; omega)]
  rw [if_pos (findHeaders_replicate_A 3000)]
  exact simple_split_replicate_3000

/-- C5: a chunk consisting of a fence-open line `"```" ++ L`, body lines
none of which trims to the bare fence marker, and any closing line whose
full trim is exactly the bare fence marker (e.g. with surrounding
whitespace), formats to exactly one CodeBlock whose language is the
normalization of `L` and which carries one text run per body line, each
the right-trimmed line plus a newline. -/
theorem claim_C5_code_block (L : Str) (body : List Str) (cl : Str)
    (hL : '\n' ∉ L) (hbodyNl : ∀ l ∈ body, '\n' ∉ l) (hclNl : '\n' ∉ cl)
    (hb : ∀ l ∈ body, trim l ≠ str "```")
    (hcl : trim cl = str "```") :
    format_for_notion (joinNl ((str "```" ++ L) :: (body ++ [cl]))) =
      some [codeBlockV (get_valid_notion_language L)
        (body.map (fun l => richTextRun (trimEnd l ++ ['\n'])))] := by
  unfold format_for_notion
  rw [splitNl_joinNl _ ?hnl (by simp), foldlM_formatStep_fence [] L body cl hb hcl]
  case hnl =>
    intro l hl
    rcases List.mem_cons.mp hl with rfl | hl
    · exact no_nl_tick_append L hL
    · rcases List.mem_append.mp hl with hl | hl
      · exact hbodyNl l hl
      · rw [List.mem_singleton.mp hl]
        exact hclNl
  simp [get_valid_trim]

theorem claim_C5_witness :
    format_for_notion (str "```rust\nfn main() \x7b\x7d\n ``` ") =
      some [codeBlockV (str "rust") [richTextRun (str "fn main() \x7b\x7d\n")]] := by
  have h := claim_C5_code_block (str "rust") [str "fn main() \x7b\x7d"] (str " ``` ")
    (by decide) (by decide) (by decide) (by decide) (by decide)
  have e1 : joinNl ((str "```" ++ str "rust") ::
      ([str "fn main() \x7b\x7d"] ++ [str " ``` "])) = str "```rust\nfn main() \x7b\x7d\n ``` " := by
    decide
  have e2 : get_valid_notion_language (str "rust") = str "rust" := by decide
  have e3 : trimEnd (str "fn main() \x7b\x7d") ++ ['\n'] = str "fn main() \x7b\x7d\n" := by
    decide
  rw [e1, e2] at h
  simpa [e3] using h

/-- C6: when a fence-open line is never followed by a closing fence line,
the open CodeBlock is still emitted at end of input with every captured
line; nothing buffered is dropped. -/
theorem claim_C6_unterminated_fence_flush (pre : List Str) (L : Str) (body : List Str)
    (blocks0 : List Value)
    (hpreNl : ∀ l ∈ pre, '\n' ∉ l) (hL : '\n' ∉ L) (hbodyNl : ∀ l ∈ body, '\n' ∉ l)
    (hpre : pre.foldlM formatStep ⟨[], none⟩ = some ⟨blocks0, none⟩)
    (hb : ∀ l ∈ body, trim l ≠ str "```") :
    format_for_notion (joinNl (pre ++ (str "```" ++ L) :: body)) =
      some (blocks0 ++ [codeBlockV (get_valid_notion_language L)
        (body.map (fun l => richTextRun (trimEnd l ++ ['\n'])))]) := by
  unfold format_for_notion
  rw [splitNl_joinNl _ ?hnl (by simp),
    foldlM_formatStep_concat pre _ _ _ hpre,
    foldlM_formatStep_fence_open blocks0 L body hb]
  case hnl =>
    intro l hl
    rcases List.mem_append.mp hl with hl | hl
    · exact hpreNl l hl
    · rcases List.mem_cons.mp hl with rfl | hl
      · exact no_nl_tick_append L hL
      · exact hbodyNl l hl
  simp [get_valid_trim]

theorem claim_C6_witness :
    format_for_notion (joinNl ([str "hello"] ++ (str "```" ++ str "py") :: [str "x"])) =
      some ([paragraphV [simpleRun (str "hello")]] ++
        [codeBlockV (get_valid_notion_language (str "py"))
          ([str "x"].map (fun l => richTextRun (trimEnd l ++ ['\n'])))]) :=
  claim_C6_unterminated_fence_flush [str "hello"] (str "py") [str "x"]
    [paragraphV [simpleRun (str "hello")]]
    (by decide) (by decide) (by decide) rfl (by decide)

/-- C7: the language normalizer is idempotent: every output (an allow-list
member or the sentinel "plain text") maps to itself when normalized
again. -/
theorem claim_C7_normalize_idempotent (x : Str) :
    get_valid_notion_language (get_valid_notion_language x) =
      get_valid_notion_language x := by
  rcases get_valid_mem_or_plain x with h | h
  · exact validLanguages_fixed _ h
  · rw [h, plain_text_fixed]

/-- C8 counterexample: a zero maximum length is NOT rejected: on the
nonempty input `"ab"` with `max_length = 0` the function proceeds with
splitting and returns the chunk `"ab\n"` (with an appended terminator,
showing splitting work was performed), rather than failing a
precondition check. -/
theorem claim_C8_counterexample :
    split_content (str "ab") 0 = [str "ab\n"] ∧ str "ab\n" ≠ str "ab" := by
  decide

/-- C8 (amended): `split_content` performs no validation of its maximum
length: a zero bound is accepted (negative bounds are unrepresentable in
the unsigned parameter type) and the function is total, returning at
least one chunk produced by the normal splitting paths. -/
theorem claim_C8_amended (text : Str) : 1 ≤ (split_content text 0).length :=
  List.length_pos.mpr (split_content_ne_nil text 0)

/-- C9: `split_content` returns at least one chunk for every input and
bound; the empty input yields exactly one empty chunk, and for nonempty
input every returned chunk is nonempty. -/
theorem claim_C9_chunks (text : Str) (maxLen : Nat) :
    1 ≤ (split_content text maxLen).length ∧
      (text = [] → split_content text maxLen = [[]]) ∧
      (text ≠ [] → ∀ c ∈ split_content text maxLen, c ≠ []) := by
  refine ⟨List.length_pos.mpr (split_content_ne_nil text maxLen), ?_, ?_⟩
  · rintro rfl
    exact split_content_nil maxLen
  · exact fun ht => split_content_chunk_ne_nil text maxLen ht

theorem claim_C9_witness :
    split_content [] 0 = [[]] ∧ ∀ c ∈ split_content (str "hi") 0, c ≠ [] :=
  ⟨(claim_C9_chunks [] 0).2.1 rfl, (claim_C9_chunks (str "hi") 0).2.2 (by decide)⟩

/-- C10: `format_for_notion` is total: the modelled `unwrap`s (of the
accumulator on fence close, and of its `rich_text` array on capture) are
never reached in a failing state, so the function returns a block list
for every input. -/
theorem claim_C10_format_total (text : Str) : (format_for_notion text).isSome = true := by
  unfold format_for_notion
  obtain ⟨st2, hst2, -⟩ := foldlM_formatStep_total (splitNl text) ⟨[], none⟩ True.intro
  rw [hst2]
  rfl

end JotDown
